import Mathlib

/-!
# docker-volume-netshare: the SeaweedFS volume driver

A shallow embedding of `netshare/drivers/seaweedfs.go` and
`netshare/drivers/driver_types.go`.

* Go strings are Lean `String`s; the library functions the driver calls
  (`strings.Split`, `strings.Join`, `strconv.Atoi`, `fmt.Sprintf` with `%d`)
  are modelled on the character list of the string.
* An index or slice expression that would fault in Go is `none`.
* The external world (directory creation, the spawned `weed mount` process,
  the `umount` shell command, directory removal) is an oracle passed to each
  call; every external step a call performs is recorded in its trace.
* The Mount Manager lives in a file of the package that is not part of the
  sources at hand; it is modelled from the specification.
-/

namespace Netshare

/-! ## Go library functions used by the driver -/

/-- The pieces of `cs` between the occurrences of `sep`; never empty. -/
def splitChars (sep : Char) : List Char → List (List Char)
  | [] => [[]]
  | c :: cs =>
    if c = sep then [] :: splitChars sep cs
    else
      match splitChars sep cs with
      | [] => [[c]]
      | p :: ps => (c :: p) :: ps

/-- Go `strings.Split(s, sep)` for a separator of one character, which is how
every call site of the driver uses it (the separators are "/", ":" and ","). -/
def Split (s : String) (sep : Char) : List String :=
  (splitChars sep s.data).map String.mk

/-- Concatenation of character lists with `sep` between consecutive ones. -/
def joinChars (sep : List Char) : List (List Char) → List Char
  | [] => []
  | [p] => p
  | p :: q :: ps => p ++ sep ++ joinChars sep (q :: ps)

/-- Go `strings.Join(parts, sep)`. -/
def Join (parts : List String) (sep : String) : String :=
  String.mk (joinChars sep.data (parts.map String.data))

/-- Bit width of the Go `int` type on the 64-bit platforms the plugin is built for. -/
def intSize : Nat := 64

/-- Value of an ASCII decimal digit, `none` for any other character. -/
def digitVal (c : Char) : Option Nat :=
  if 48 ≤ c.toNat ∧ c.toNat ≤ 57 then some (c.toNat - 48) else none

/-- Reads a run of decimal digits most significant first, starting from `acc`;
`none` as soon as a character is not a digit. -/
def parseDigits : Nat → List Char → Option Nat
  | acc, [] => some acc
  | acc, c :: cs =>
    match digitVal c with
    | none => none
    | some d => parseDigits (acc * 10 + d) cs

/-- Unsigned magnitude of a numeral: at least one digit, digits only. -/
def parseMagnitude (cs : List Char) : Option Nat :=
  match cs with
  | [] => none
  | _ :: _ => parseDigits 0 cs

/-- Go `strconv.Atoi`: an optional sign followed by decimal digits, the value
within the range of `int`; `none` stands for a returned error (syntax or
range). -/
def Atoi (s : String) : Option Int :=
  match s.data with
  | [] => none
  | c :: cs =>
    if c = '-' then
      match parseMagnitude cs with
      | none => none
      | some n => if n ≤ 2 ^ (intSize - 1) then some (-(n : Int)) else none
    else
      match parseMagnitude (if c = '+' then cs else c :: cs) with
      | none => none
      | some n => if n < 2 ^ (intSize - 1) then some (n : Int) else none

/-- Decimal rendering of an `int`, as `fmt.Sprintf` does for the verb `%d`. -/
def formatInt (i : Int) : String :=
  match i with
  | Int.ofNat n => Nat.repr n
  | Int.negSucc n => "-" ++ Nat.repr (n + 1)

/-- Go slice expression `xs[1:]`: faults on an empty slice. -/
def sliceFrom1 {α : Type} : List α → Option (List α)
  | [] => none
  | _ :: xs => some xs

/-! ## parseSource -/

/-- Source `seaweedfsDriver.parseSource` (seaweedfs.go, lines 100-119): the
source has the form `[filer[:port]]/filerPath`. The result is `none` when an
index expression is out of range. -/
def parseSource (source : String) : Option (String × Int × String) :=
  let sourceParts := Split source '/'
  match sourceParts[0]? with
  | none => none
  | some first =>
    if first = "" then
      some ("", 0, Join sourceParts "/")
    else
      let hostPort := Split first ':'
      match sliceFrom1 sourceParts with
      | none => none
      | some tail =>
        let path := "/" ++ Join tail "/"
        if hostPort.length > 1 then
          match hostPort[1]? with
          | none => none
          | some portText =>
            match Atoi portText with
            | none =>
              match hostPort[0]? with
              | none => none
              | some host => some (host, 0, path)
            | some val =>
              match hostPort[0]? with
              | none => none
              | some host => some (host, val, path)
        else
          some (first, 0, path)

/-! ## Mount Manager

The Mount Manager (`MountManager`, in the package file that holds the shared
mount table) is not among the sources at hand. The definitions of this section
follow the specification, sections 3 and 4.1. -/

/-- Go `map[string]string`: the first pair with a given key is the entry of
that key. -/
abbrev StrMap := List (String × String)

/-- Modelled from the spec: the Volume record held inside the Mount Manager
(section 3: `name`, `hostdir`, `refcount`, `options`), with the flag `managed`
for a volume "pre-provisioned with static options outside the mount flow"
(section 4.1). The refcount is a Go `int`, kept as an unbounded integer so that
non-negativity is a property to prove and not a property of the type. -/
structure mount where
  name : String
  hostdir : String
  refcount : Int
  options : StrMap
  managed : Bool
deriving DecidableEq, Repr

/-- Modelled from the spec: the Mount Manager, a "table tracking, per volume
name, a reference count, the hostdir path, and the mount options last used"
(section 2). -/
structure MountManager where
  mounts : String → Option mount

namespace MountManager

/-- The table without any record. -/
def empty : MountManager := ⟨fun _ => none⟩

/-- Writes (or with `none` removes) the record of `name`. -/
def put (m : MountManager) (name : String) (r : Option mount) : MountManager :=
  ⟨fun k => if k = name then r else m.mounts k⟩

/-- Modelled from the spec: `HasMount(name) -> bool`: "true if a record
exists, regardless of count". -/
def HasMount (m : MountManager) (name : String) : Bool :=
  (m.mounts name).isSome

/-- Modelled from the spec: `Count(name) -> int`: "current refcount, 0 if
absent". -/
def Count (m : MountManager) (name : String) : Int :=
  match m.mounts name with
  | some r => r.refcount
  | none => 0

/-- Modelled from the spec: `Add(name, hostdir)`: "creates a record with
refcount = 1 if absent, or is a no-op if already present". The record is made
inside the mount flow, so it is not a pre-provisioned (managed) one, and it
carries no options. -/
def Add (m : MountManager) (name hostdir : String) : MountManager :=
  match m.mounts name with
  | some _ => m
  | none => m.put name (some ⟨name, hostdir, 1, [], false⟩)

/-- Modelled from the spec: `Increment(name)`: "adjust refcount by +1". The
spec does not say what happens without a record; the table is then left as it
is (the driver calls `Increment` only after `HasMount`). -/
def Increment (m : MountManager) (name : String) : MountManager :=
  match m.mounts name with
  | some r => m.put name (some { r with refcount := r.refcount + 1 })
  | none => m

/-- Modelled from the spec: `Decrement(name)`: "adjust refcount by -1;
decrementing below 0 is not permitted and indicates a caller bug (must fail,
not silently clamp)". `none` is that failure, reported to the caller with the
table left as it was; a volume without a record counts as refcount 0
(section 3). -/
def Decrement (m : MountManager) (name : String) : Option MountManager :=
  match m.mounts name with
  | some r =>
    if 0 < r.refcount then some (m.put name (some { r with refcount := r.refcount - 1 }))
    else none
  | none => none

/-- Modelled from the spec: `DeleteIfNotManaged(name)`: "removes the record
only if refcount == 0 and the volume was not pre-provisioned with static
options outside the mount flow". -/
def DeleteIfNotManaged (m : MountManager) (name : String) : MountManager :=
  match m.mounts name with
  | some r => if r.refcount = 0 ∧ r.managed = false then m.put name none else m
  | none => m

/-- Modelled from the spec: `GetOptions(name) -> mapping`: "returns the
recorded options (empty mapping if none)". -/
def GetOptions (m : MountManager) (name : String) : StrMap :=
  match m.mounts name with
  | some r => r.options
  | none => []

end MountManager

/-- Modelled from the spec: the package helper `merge(src, defaults)` (not in
the sources at hand), section 4.3 "Option merging": "for a given key, the more
specific source wins, values from the other source but absent in the first are
still included". -/
def merge (src defaults : StrMap) : StrMap :=
  src ++ defaults.filter (fun kv => (src.lookup kv.1).isNone)

/-! ## The driver -/

/-- Source constant `SeaweedfsOptions`. -/
def SeaweedfsOptions : String := "seaweedfsopts"

/-- Modelled from the spec: the embedded `volumeDriver` base (not in the
sources at hand): the configured root directory, and the package function
`mountpoint` kept abstract (section 3: hostdir is "derived deterministically
from a configured root directory and `name`"). Its lock serialises the calls,
which is why calls are modelled as running one after the other; its Mount
Manager reference is the `mountm` of `DriverState`. -/
structure volumeDriver where
  root : String
  mountpoint : String → String → String

/-- Source `seaweedfsDriver` (seaweedfs.go, lines 19-27): the immutable
configuration. The two tables the driver mutates through references are in
`DriverState`. -/
structure seaweedfsDriver extends volumeDriver where
  filer : String
  filerPath : String
  filerPort : Int
  seaweedfsOpts : StrMap

/-- The mutable tables reachable from a `seaweedfsDriver`: the shared Mount
Manager and the map `runningMounts` from volume name to process id. -/
structure DriverState where
  mountm : MountManager
  runningMounts : String → Option Int

/-- Source `NewSeaweedfsDriver` (seaweedfs.go, lines 29-43). -/
def NewSeaweedfsDriver (base : volumeDriver) (filer : String) (filerPort : Int)
    (filerPath : String) (seaweedfsOpts : String) : seaweedfsDriver :=
  { root := base.root
    mountpoint := base.mountpoint
    filer := filer
    filerPath := filerPath
    filerPort := filerPort
    seaweedfsOpts := if seaweedfsOpts.length > 0 then [(SeaweedfsOptions, seaweedfsOpts)] else [] }

/-- An action of the driver on the world outside the process. -/
inductive Event
  /-- The call `createDest(dir)`. -/
  | createDest (dir : String)
  /-- The call `exec.Command(bin, args...).Start()`. -/
  | exec (bin : String) (args : List String)
  /-- The call `run(cmd)`, a shell command. -/
  | run (cmd : String)
  /-- The call `os.RemoveAll(dir)`. -/
  | removeAll (dir : String)
deriving DecidableEq, Repr

/-- What the world answers to the external steps of one call: for each step
the error it returns (`none` for success), and `pid`, the value the driver
reads from `cmd.Process.Pid` after `Release()` has returned. -/
structure Env where
  createDestErr : Option String
  startErr : Option String
  signalErr : Option String
  releaseErr : Option String
  pid : Int
  runErr : Option String
  removeAllErr : Option String

/-- How a call ends: a normal return with a nil error, a returned error, or a
run-time fault (a Go panic). -/
inductive Outcome (α : Type)
  | ok (a : α)
  | error (e : String)
  | fault
deriving DecidableEq, Repr

/-- Source `seaweedfsDriver.runMount` (seaweedfs.go, lines 149-173). -/
def runMount (env : Env) (st : DriverState) (name : String) (args : List String) :
    Outcome Unit × List Event × DriverState :=
  match env.startErr with
  | some e => (Outcome.error e, [Event.exec "weed" args], st)
  | none =>
    match env.signalErr with
    | some _ => (Outcome.error ("Process is dead for " ++ name), [Event.exec "weed" args], st)
    | none =>
      match env.releaseErr with
      | some e => (Outcome.error e, [Event.exec "weed" args], st)
      | none =>
        (Outcome.ok (), [Event.exec "weed" args],
          { st with runningMounts := fun k => if k = name then some env.pid else st.runningMounts k })

/-- The argument list built by `seaweedfsDriver.mountVolume` (seaweedfs.go,
lines 122-144); `none` when `parseSource` faults. -/
def mountVolumeArgs (n : seaweedfsDriver) (mountm : MountManager) (name source dest : String) :
    Option (List String) :=
  let options := merge (mountm.GetOptions name) n.seaweedfsOpts
  let opts : List String :=
    match options.lookup SeaweedfsOptions with
    | some val => Split val ','
    | none => []
  match parseSource source with
  | none => none
  | some (filer, filerPort, filerPath) =>
    let filerPort := if filerPort = 0 then n.filerPort else filerPort
    let filer := if filer = "" then n.filer else filer
    some (["mount",
           "-dir=" ++ dest,
           "-filer=" ++ filer ++ ":" ++ formatInt filerPort,
           "-filer.path=" ++ filerPath] ++ opts)

/-- Source `seaweedfsDriver.mountVolume` (seaweedfs.go, lines 121-147). -/
def mountVolume (n : seaweedfsDriver) (env : Env) (st : DriverState) (name source dest : String) :
    Outcome Unit × List Event × DriverState :=
  match mountVolumeArgs n st.mountm name source dest with
  | none => (Outcome.fault, [], st)
  | some args => runMount env st name args

/-- Source `seaweedfsDriver.Mount` (seaweedfs.go, lines 45-67); the request
carries the volume name, the response the mountpoint. -/
def Mount (n : seaweedfsDriver) (env : Env) (st : DriverState) (name : String) :
    Outcome String × List Event × DriverState :=
  let hostdir := n.mountpoint n.root name
  let source := name
  if st.mountm.HasMount name = true ∧ st.mountm.Count name > 0 then
    (Outcome.ok hostdir, [], { st with mountm := st.mountm.Increment name })
  else
    match env.createDestErr with
    | some e => (Outcome.error e, [Event.createDest hostdir], st)
    | none =>
      match mountVolume n env st name source hostdir with
      | (Outcome.error e, tr, st1) => (Outcome.error e, Event.createDest hostdir :: tr, st1)
      | (Outcome.fault, tr, st1) => (Outcome.fault, Event.createDest hostdir :: tr, st1)
      | (Outcome.ok (), tr, st1) =>
        (Outcome.ok hostdir, Event.createDest hostdir :: tr,
          { st1 with mountm := st1.mountm.Add name hostdir })

/-- The part of `Unmount` after the reference counting (seaweedfs.go, lines
85-97): the `umount` command, `DeleteIfNotManaged`, the removal of the
directory. -/
def unmountPhysical (env : Env) (st : DriverState) (name hostdir : String) :
    Outcome Unit × List Event × DriverState :=
  match env.runErr with
  | some e => (Outcome.error e, [Event.run ("umount " ++ hostdir)], st)
  | none =>
    let st1 : DriverState := { st with mountm := st.mountm.DeleteIfNotManaged name }
    match env.removeAllErr with
    | some e => (Outcome.error e, [Event.run ("umount " ++ hostdir), Event.removeAll hostdir], st1)
    | none => (Outcome.ok (), [Event.run ("umount " ++ hostdir), Event.removeAll hostdir], st1)

/-- The table a caller is left with when it calls `Decrement` as a statement
and discards what it returns: the lowered table, or, when `Decrement` fails,
the table as it was. -/
def MountManager.afterDecrement (m : MountManager) (name : String) : MountManager :=
  match m.Decrement name with
  | some lowered => lowered
  | none => m

/-- Source `seaweedfsDriver.Unmount` (seaweedfs.go, lines 69-98). Lines 79 and
82 call `Decrement` as a statement: whatever it returns is discarded and the
call goes on. -/
def Unmount (n : seaweedfsDriver) (env : Env) (st : DriverState) (name : String) :
    Outcome Unit × List Event × DriverState :=
  let hostdir := n.mountpoint n.root name
  if st.mountm.HasMount name = true then
    if st.mountm.Count name > 1 then
      (Outcome.ok (), [], { st with mountm := st.mountm.afterDecrement name })
    else
      unmountPhysical env { st with mountm := st.mountm.afterDecrement name } name hostdir
  else
    unmountPhysical env st name hostdir

/-! ## Sequences of calls -/

/-- A request to the driver together with the answers of the world to it. -/
inductive Call
  | mount (env : Env) (name : String)
  | unmount (env : Env) (name : String)

/-- The state left by one call. -/
def stepCall (n : seaweedfsDriver) (st : DriverState) : Call → DriverState
  | Call.mount env name => (Mount n env st name).2.2
  | Call.unmount env name => (Unmount n env st name).2.2

/-- The state left by a sequence of calls run one after the other. -/
def runCalls (n : seaweedfsDriver) (st : DriverState) (calls : List Call) : DriverState :=
  calls.foldl (stepCall n) st

/-- One `Mount` call per element of `envs`, all for `name`: the outcome and the
trace of each call in order, and the final state. -/
def mountMany (n : seaweedfsDriver) (name : String) :
    List Env → DriverState → List (Outcome String × List Event) × DriverState
  | [], st => ([], st)
  | env :: envs, st =>
    let r := Mount n env st name
    let rest := mountMany n name envs r.2.2
    ((r.1, r.2.1) :: rest.1, rest.2)

/-- One `Unmount` call per element of `envs`, all for `name`: the outcome and
the trace of each call in order, and the final state. -/
def unmountMany (n : seaweedfsDriver) (name : String) :
    List Env → DriverState → List (Outcome Unit × List Event) × DriverState
  | [], st => ([], st)
  | env :: envs, st =>
    let r := Unmount n env st name
    let rest := unmountMany n name envs r.2.2
    ((r.1, r.2.1) :: rest.1, rest.2)

/-- The event is the start of the `weed mount` process: a physical mount. -/
def Event.isMount : Event → Bool
  | Event.exec _ _ => true
  | _ => false

/-- The event is the external `umount` command for `hostdir`. -/
def Event.isUmount (hostdir : String) : Event → Bool
  | Event.run cmd => cmd = "umount " ++ hostdir
  | _ => false

/-- The event removes a directory. -/
def Event.isRemoveAll : Event → Bool
  | Event.removeAll _ => true
  | _ => false

/-- Every external step of a `Mount` call succeeds in `env`. -/
def Env.mountSucceeds (env : Env) : Prop :=
  env.createDestErr = none ∧ env.startErr = none ∧ env.signalErr = none ∧ env.releaseErr = none

/-- Every external step of an `Unmount` call succeeds in `env`. -/
def Env.unmountSucceeds (env : Env) : Prop :=
  env.runErr = none ∧ env.removeAllErr = none

instance (env : Env) : Decidable env.mountSucceeds := by
  unfold Env.mountSucceeds; infer_instance

instance (env : Env) : Decidable env.unmountSucceeds := by
  unfold Env.unmountSucceeds; infer_instance

/-- An oracle under which every external step succeeds. -/
def Env.allOk : Env :=
  { createDestErr := none, startErr := none, signalErr := none, releaseErr := none,
    pid := -1, runErr := none, removeAllErr := none }

/-- A driver instance used to evaluate the model on concrete inputs. -/
def sampleDriver : seaweedfsDriver :=
  NewSeaweedfsDriver ⟨"/var/lib/docker-volumes/netshare/seaweedfs", fun root name => root ++ "/" ++ name⟩
    "localhost" 8888 "/" ""

/-- The state of a freshly started plugin: no record, no running mount. -/
def DriverState.init : DriverState := ⟨MountManager.empty, fun _ => none⟩

/-- A character list is a decimal numeral of `n`: not empty, made of digits
only, and read back as `n` in front of any continuation. -/
def IsNumeral (ds : List Char) (n : Nat) : Prop :=
  ds ≠ [] ∧ (∀ c ∈ ds, ∃ k, k < 10 ∧ c = Nat.digitChar k) ∧
    ∀ rest, parseDigits 0 (ds ++ rest) = parseDigits n rest

/-- No record of the table has a negative refcount. -/
def MountManager.NonNeg (m : MountManager) : Prop :=
  ∀ name r, m.mounts name = some r → 0 ≤ r.refcount

/-- An oracle whose `umount` command fails. -/
def Env.umountFails : Env :=
  { Env.allOk with runErr := some "umount: target is busy" }

/-- An oracle whose directory creation fails. -/
def Env.createDestFails : Env :=
  { Env.allOk with createDestErr := some "mkdir: permission denied" }

/-- An oracle under which the `weed` binary cannot be started. -/
def Env.startFails : Env :=
  { Env.allOk with startErr := some "exec: weed: executable file not found" }

/-- The state after one successful `Mount` of "vol" on a fresh plugin. -/
def DriverState.mountedOnce : DriverState :=
  (Mount sampleDriver Env.allOk DriverState.init "vol").2.2

/-- The state after one successful `Mount` of "vol" and one `Unmount` of it
whose `umount` command failed. -/
def DriverState.afterFailedUmount : DriverState :=
  (Unmount sampleDriver Env.umountFails DriverState.mountedOnce "vol").2.2

/-! ## mountOptions -/

/-- Go `len(m)` of a map: the number of its keys. -/
def StrMap.len (m : StrMap) : Nat :=
  (m.map Prod.fst).dedup.length

/-- Go `m[k] = v`: the entry of `k` is replaced or added. -/
def StrMap.set (m : StrMap) (k v : String) : StrMap :=
  (k, v) :: m.filter (fun kv => kv.1 != k)

/-- Go `for k, v := range src { dst[k] = v }`. Go visits every key of `src`
once, in an order it does not fix. On the list that stands for `src` the pairs
are visited from the last to the first, so that a pair hidden behind an earlier
pair of the same key (not an entry of the map) never overrides the entry. -/
def StrMap.copyInto (src dst : StrMap) : StrMap :=
  src.foldr (fun kv acc => StrMap.set acc kv.1 kv.2) dst

/-- Modelled from the spec: the package variable `EmptyMap` (not in the
sources at hand), the "immutable canonical empty mapping" of section 4.3. -/
def EmptyMap : StrMap := []

/-- Source `seaweedfsDriver.mountOptions` (seaweedfs.go, lines 175-189). -/
def mountOptions (n : seaweedfsDriver) (src : StrMap) : StrMap :=
  if StrMap.len n.seaweedfsOpts = 0 ∧ StrMap.len src = 0 then
    EmptyMap
  else
    let dst : StrMap := []
    let dst := StrMap.copyInto n.seaweedfsOpts dst
    let dst := StrMap.copyInto src dst
    dst

/-- A driver whose default options are `opt: "a,b"`. -/
def optDriver : seaweedfsDriver :=
  { sampleDriver with seaweedfsOpts := [("opt", "a,b")] }

/-! ## Backend registry -/

/-- Source type `DriverType` (driver_types.go, line 3): a Go `int`. -/
abbrev DriverType := Int

/-- Source constant `CIFS` (`iota` = 0). -/
def CIFS : DriverType := 0

/-- Source constant `NFS`. -/
def NFS : DriverType := 1

/-- Source constant `EFS`. -/
def EFS : DriverType := 2

/-- Source constant `CEPH`. -/
def CEPH : DriverType := 3

/-- Source constant `SEAWEEDFS`. -/
def SEAWEEDFS : DriverType := 4

/-- The constants the source declares, in the order of declaration. -/
def declaredKinds : List DriverType := [CIFS, NFS, EFS, CEPH, SEAWEEDFS]

/-- Source variable `driverTypes` (driver_types.go, lines 13-19). -/
def driverTypes : List String := ["cifs", "nfs", "efs", "ceph", "seaweedfs"]

/-- Go index expression `xs[i]` with an `int` index: a fault (`none`) when
the index is negative or not below `len(xs)`. -/
def indexInt {α : Type} (xs : List α) (i : Int) : Option α :=
  if 0 ≤ i then xs[i.toNat]? else none

/-- Source `DriverType.String` (driver_types.go, lines 21-23); `none` is the
index-out-of-range fault. -/
def DriverType.String (dt : DriverType) : Option String :=
  indexInt driverTypes dt

/-! ## Lemmas on the library functions -/

theorem splitChars_ne_nil (sep : Char) (cs : List Char) : splitChars sep cs ≠ [] := by
  cases cs with
  | nil => simp [splitChars]
  | cons c cs =>
    unfold splitChars
    split
    · simp
    · split <;> simp

theorem splitChars_of_not_mem (sep : Char) (cs : List Char) (h : sep ∉ cs) :
    splitChars sep cs = [cs] := by
  induction cs with
  | nil => rfl
  | cons c cs ih =>
    have hc : ¬ c = sep := fun e => h (by simp [e])
    have hcs : sep ∉ cs := fun e => h (List.mem_cons_of_mem _ e)
    simp [splitChars, hc, ih hcs]

theorem splitChars_append_sep (sep : Char) (a b : List Char) (h : sep ∉ a) :
    splitChars sep (a ++ sep :: b) = a :: splitChars sep b := by
  induction a with
  | nil => simp [splitChars]
  | cons c cs ih =>
    have hc : ¬ c = sep := fun e => h (by simp [e])
    have hcs : sep ∉ cs := fun e => h (List.mem_cons_of_mem _ e)
    simp [splitChars, hc, ih hcs]

theorem joinChars_cons (sep p : List Char) (ps : List (List Char)) (h : ps ≠ []) :
    joinChars sep (p :: ps) = p ++ sep ++ joinChars sep ps := by
  cases ps with
  | nil => exact absurd rfl h
  | cons q qs => rfl

theorem joinChars_splitChars (sep : Char) (cs : List Char) :
    joinChars [sep] (splitChars sep cs) = cs := by
  induction cs with
  | nil => rfl
  | cons c cs ih =>
    unfold splitChars
    split
    · next h =>
      rw [joinChars_cons _ _ _ (splitChars_ne_nil sep cs), ih]
      simp [h]
    · split
      · next h => exact absurd h (splitChars_ne_nil sep cs)
      · next p ps h =>
        rw [h] at ih
        cases ps with
        | nil =>
          simp only [joinChars] at ih ⊢
          rw [ih]
        | cons q qs =>
          simp only [joinChars] at ih ⊢
          rw [← ih]
          simp

theorem Join_Split (s : String) (sep : Char) : Join (Split s sep) (String.mk [sep]) = s := by
  unfold Join Split
  have h : List.map String.data (List.map String.mk (splitChars sep s.data))
      = splitChars sep s.data := by
    rw [List.map_map]
    exact List.map_id _
  rw [h, joinChars_splitChars]

theorem Split_ne_nil (s : String) (sep : Char) : Split s sep ≠ [] := by
  unfold Split
  intro h
  exact splitChars_ne_nil sep s.data (List.map_eq_nil_iff.mp h)

/-- Every index and slice expression of `parseSource` is in range. -/
theorem parseSource_ne_none (source : String) : parseSource source ≠ none := by
  unfold parseSource
  cases hs : Split source '/' with
  | nil => exact absurd hs (Split_ne_nil _ _)
  | cons first tail =>
    simp only [List.getElem?_cons_zero, sliceFrom1]
    split
    · simp
    · split
      · next hlen =>
        cases hp : Split first ':' with
        | nil => rw [hp] at hlen; simp at hlen
        | cons h0 t =>
          cases t with
          | nil => rw [hp] at hlen; simp at hlen
          | cons h1 t1 =>
            simp only [List.getElem?_cons_zero, List.getElem?_cons_succ]
            cases Atoi h1 <;> simp
      · simp

theorem digitVal_digitChar (k : Nat) (h : k < 10) : digitVal (Nat.digitChar k) = some k := by
  interval_cases k <;> rfl

theorem digitChar_ne_sign (k : Nat) (h : k < 10) :
    Nat.digitChar k ≠ '-' ∧ Nat.digitChar k ≠ '+' ∧ Nat.digitChar k ≠ '/' ∧ Nat.digitChar k ≠ ':' := by
  interval_cases k <;> decide

theorem toDigitsCore_numeral (fuel : Nat) : ∀ (n : Nat) (ds : List Char), n < fuel →
    ∃ front, Nat.toDigitsCore 10 fuel n ds = front ++ ds ∧ IsNumeral front n := by
  induction fuel with
  | zero => intro n ds h; omega
  | succ fuel ih =>
    intro n ds h
    unfold Nat.toDigitsCore
    have hmod : n % 10 < 10 := Nat.mod_lt _ (by decide)
    by_cases h0 : n / 10 = 0
    · simp only [h0, if_true]
      refine ⟨[Nat.digitChar (n % 10)], rfl, by simp, ?_, ?_⟩
      · intro c hc
        exact ⟨n % 10, hmod, by simpa using hc⟩
      · intro rest
        have hn : n % 10 = n := by omega
        have hdv := digitVal_digitChar _ hmod
        rw [hn] at hdv
        simp [parseDigits, hn, hdv]
    · simp only [h0, if_false]
      have hlt : n / 10 < fuel := by omega
      obtain ⟨front, hfront, hne, hdig, hval⟩ := ih (n / 10) (Nat.digitChar (n % 10) :: ds) hlt
      refine ⟨front ++ [Nat.digitChar (n % 10)], by simp [hfront], by simp, ?_, ?_⟩
      · intro c hc
        rcases List.mem_append.mp hc with hc | hc
        · exact hdig c hc
        · exact ⟨n % 10, hmod, by simpa using hc⟩
      · intro rest
        have hn : n / 10 * 10 + n % 10 = n := by omega
        rw [List.append_assoc, hval]
        simp [parseDigits, digitVal_digitChar _ hmod, hn]

theorem repr_numeral (n : Nat) : IsNumeral (Nat.repr n).data n := by
  obtain ⟨front, hfront, hnum⟩ := toDigitsCore_numeral (n + 1) n [] (Nat.lt_succ_self n)
  have h : (Nat.repr n).data = front := by
    simp [Nat.repr, Nat.toDigits, List.asString, hfront]
  rw [h]
  exact hnum

theorem Atoi_repr (n : Nat) (h : n < 2 ^ (intSize - 1)) : Atoi (Nat.repr n) = some (n : Int) := by
  obtain ⟨hne, hdig, hval⟩ := repr_numeral n
  unfold Atoi
  cases hd : (Nat.repr n).data with
  | nil => exact absurd hd hne
  | cons c cs =>
    obtain ⟨k, hk, hc⟩ := hdig c (by simp [hd])
    obtain ⟨hminus, hplus, -, -⟩ := digitChar_ne_sign k hk
    have hv := hval []
    rw [hd] at hv
    simp only [List.append_nil] at hv
    have hv2 : parseDigits 0 (c :: cs) = some n := by
      rw [hv]; rfl
    simp only [hc, hminus, hplus, if_false, parseMagnitude]
    rw [← hc, hv2]
    simp [h]

theorem repr_no_sep (n : Nat) : '/' ∉ (Nat.repr n).data ∧ ':' ∉ (Nat.repr n).data := by
  obtain ⟨-, hdig, -⟩ := repr_numeral n
  constructor
  · intro hmem
    obtain ⟨k, hk, hc⟩ := hdig _ hmem
    exact (digitChar_ne_sign k hk).2.2.1 hc.symm
  · intro hmem
    obtain ⟨k, hk, hc⟩ := hdig _ hmem
    exact (digitChar_ne_sign k hk).2.2.2 hc.symm

/-- What `parseSource` returns on a source of the form `host:port/rest`. -/
theorem parseSource_host_port (host portText rest : String)
    (hne : host ≠ "") (hs : '/' ∉ host.data) (hc : ':' ∉ host.data)
    (ps : '/' ∉ portText.data) (pc : ':' ∉ portText.data) :
    parseSource (host ++ ":" ++ portText ++ "/" ++ rest) =
      some (host, (Atoi portText).getD 0, "/" ++ rest) := by
  have hfirst : '/' ∉ host.data ++ ':' :: portText.data := by
    intro hmem
    rcases List.mem_append.mp hmem with hm | hm
    · exact hs hm
    · rcases List.mem_cons.mp hm with hm | hm
      · exact absurd hm (by decide)
      · exact ps hm
  have hsplit : Split (host ++ ":" ++ portText ++ "/" ++ rest) '/' =
      (host ++ ":" ++ portText) :: Split rest '/' := by
    unfold Split
    have hd : (host ++ ":" ++ portText ++ "/" ++ rest).data =
        (host.data ++ ':' :: portText.data) ++ '/' :: rest.data := by
      simp [String.data_append]
    rw [hd, splitChars_append_sep _ _ _ hfirst]
    simp [String.ext_iff, String.data_append]
  have hport : Split (host ++ ":" ++ portText) ':' = [host, portText] := by
    unfold Split
    have hd : (host ++ ":" ++ portText).data = host.data ++ ':' :: portText.data := by
      simp [String.data_append]
    rw [hd, splitChars_append_sep _ _ _ hc, splitChars_of_not_mem _ _ pc]
    rfl
  have hnonempty : ¬ (host ++ ":" ++ portText = "") := by
    intro h
    apply hne
    have h2 := congrArg String.data h
    simp [String.data_append] at h2
  have hjoin : Join (Split rest '/') "/" = rest := Join_Split rest '/'
  unfold parseSource
  simp only [hsplit, List.getElem?_cons_zero, hnonempty, if_false, hport, sliceFrom1, hjoin]
  cases hA : Atoi portText <;> simp [hA]

/-! ## Lemmas on single calls -/

theorem mountVolumeArgs_ne_none (n : seaweedfsDriver) (mm : MountManager)
    (name source dest : String) : mountVolumeArgs n mm name source dest ≠ none := by
  unfold mountVolumeArgs
  cases h : parseSource source with
  | none => exact absurd h (parseSource_ne_none source)
  | some r => simp

theorem runMount_ok (env : Env) (st : DriverState) (name : String) (args : List String)
    (h : env.startErr = none ∧ env.signalErr = none ∧ env.releaseErr = none) :
    runMount env st name args =
      (Outcome.ok (), [Event.exec "weed" args],
        ⟨st.mountm, fun k => if k = name then some env.pid else st.runningMounts k⟩) := by
  obtain ⟨h1, h2, h3⟩ := h
  simp [runMount, h1, h2, h3]

theorem runMount_mountm (env : Env) (st : DriverState) (name : String) (args : List String) :
    (runMount env st name args).2.2.mountm = st.mountm := by
  unfold runMount
  cases env.startErr <;> cases env.signalErr <;> cases env.releaseErr <;> rfl

theorem runMount_trace (env : Env) (st : DriverState) (name : String) (args : List String) :
    (runMount env st name args).2.1 = [Event.exec "weed" args] := by
  unfold runMount
  cases env.startErr <;> cases env.signalErr <;> cases env.releaseErr <;> rfl

theorem runMount_not_ok (env : Env) (st : DriverState) (name : String) (args : List String)
    (h : (runMount env st name args).1 ≠ Outcome.ok ()) :
    (runMount env st name args).2.2 = st := by
  unfold runMount at h ⊢
  cases h1 : env.startErr <;> cases h2 : env.signalErr <;> cases h3 : env.releaseErr <;>
    simp_all

/-- A `Mount` call that finds no live reference and whose external steps all
succeed: one directory creation, one start of `weed mount`, then `Add`. -/
theorem Mount_first (n : seaweedfsDriver) (env : Env) (st : DriverState) (name : String)
    (hguard : ¬ (st.mountm.HasMount name = true ∧ st.mountm.Count name > 0))
    (henv : env.mountSucceeds) :
    ∃ args, Mount n env st name =
      (Outcome.ok (n.mountpoint n.root name),
        [Event.createDest (n.mountpoint n.root name), Event.exec "weed" args],
        ⟨st.mountm.Add name (n.mountpoint n.root name),
          fun k => if k = name then some env.pid else st.runningMounts k⟩) := by
  obtain ⟨h0, h1, h2, h3⟩ := henv
  cases hargs : mountVolumeArgs n st.mountm name name (n.mountpoint n.root name) with
  | none => exact absurd hargs (mountVolumeArgs_ne_none _ _ _ _ _)
  | some args =>
    refine ⟨args, ?_⟩
    unfold Mount
    simp only [hguard, if_false, h0, mountVolume, hargs, runMount_ok env st name args ⟨h1, h2, h3⟩]

/-- A `Mount` call that finds a record with a positive refcount. -/
theorem Mount_reuse (n : seaweedfsDriver) (env : Env) (st : DriverState) (name : String)
    (r : mount) (hr : st.mountm.mounts name = some r) (hpos : 0 < r.refcount) :
    Mount n env st name =
      (Outcome.ok (n.mountpoint n.root name), [],
        ⟨st.mountm.put name (some { r with refcount := r.refcount + 1 }), st.runningMounts⟩) := by
  have hguard : st.mountm.HasMount name = true ∧ st.mountm.Count name > 0 := by
    simp [MountManager.HasMount, MountManager.Count, hr, hpos]
  unfold Mount
  simp only [hguard, and_self, if_true, MountManager.Increment, hr]

/-- An `Unmount` call that finds a record with a refcount above one. -/
theorem Unmount_shared (n : seaweedfsDriver) (env : Env) (st : DriverState) (name : String)
    (r : mount) (hr : st.mountm.mounts name = some r) (hgt : 1 < r.refcount) :
    Unmount n env st name =
      (Outcome.ok (), [],
        ⟨st.mountm.put name (some { r with refcount := r.refcount - 1 }), st.runningMounts⟩) := by
  have hpos : 0 < r.refcount := by omega
  unfold Unmount
  simp [MountManager.HasMount, MountManager.Count, MountManager.afterDecrement,
    MountManager.Decrement, hr, hgt, hpos]

/-- The last `Unmount` of a record made by the mount flow, the external steps
succeeding: the `umount` command, the removal of the record and of the
directory. -/
theorem Unmount_last (n : seaweedfsDriver) (env : Env) (st : DriverState) (name : String)
    (r : mount) (hr : st.mountm.mounts name = some r) (h1 : r.refcount = 1)
    (hm : r.managed = false) (henv : env.unmountSucceeds) :
    (Unmount n env st name).1 = Outcome.ok () ∧
    (Unmount n env st name).2.1 =
      [Event.run ("umount " ++ n.mountpoint n.root name),
        Event.removeAll (n.mountpoint n.root name)] ∧
    (Unmount n env st name).2.2.mountm.HasMount name = false := by
  obtain ⟨e1, e2⟩ := henv
  unfold Unmount
  simp [MountManager.HasMount, MountManager.Count, MountManager.afterDecrement,
    MountManager.Decrement, hr, h1, unmountPhysical, e1, e2, MountManager.DeleteIfNotManaged,
    MountManager.put, hm]

/-! ## Lemmas on sequences of calls -/

theorem mountMany_cons (n : seaweedfsDriver) (name : String) (env : Env) (envs : List Env)
    (st : DriverState) :
    mountMany n name (env :: envs) st =
      (((Mount n env st name).1, (Mount n env st name).2.1) ::
          (mountMany n name envs (Mount n env st name).2.2).1,
        (mountMany n name envs (Mount n env st name).2.2).2) := rfl

theorem unmountMany_cons (n : seaweedfsDriver) (name : String) (env : Env) (envs : List Env)
    (st : DriverState) :
    unmountMany n name (env :: envs) st =
      (((Unmount n env st name).1, (Unmount n env st name).2.1) ::
          (unmountMany n name envs (Unmount n env st name).2.2).1,
        (unmountMany n name envs (Unmount n env st name).2.2).2) := rfl

theorem mountMany_reuse (n : seaweedfsDriver) (name : String) :
    ∀ (envs : List Env) (st : DriverState) (r : mount),
      st.mountm.mounts name = some r → 0 < r.refcount →
      (mountMany n name envs st).1 =
          List.replicate envs.length (Outcome.ok (n.mountpoint n.root name), []) ∧
        (mountMany n name envs st).2.mountm.mounts name =
          some { r with refcount := r.refcount + envs.length } := by
  intro envs
  induction envs with
  | nil =>
    intro st r hr _
    simp [mountMany, hr]
  | cons env envs ih =>
    intro st r hr hpos
    have hstep := Mount_reuse n env st name r hr hpos
    have hr1 : (Mount n env st name).2.2.mountm.mounts name =
        some { r with refcount := r.refcount + 1 } := by
      rw [hstep]; simp [MountManager.put]
    obtain ⟨ih1, ih2⟩ := ih (Mount n env st name).2.2 _ hr1 (by show 0 < r.refcount + 1; omega)
    constructor
    · simp only [mountMany, ih1, List.length_cons, List.replicate_succ]
      rw [hstep]
    · simp only [mountMany, ih2, List.length_cons]
      congr 2
      push_cast
      ring

/-- From a state without a record for `name`, a non-empty run of `Mount` calls
with succeeding external steps: what each call returns and does, and the
record left behind. -/
theorem mountMany_fresh (n : seaweedfsDriver) (name : String) (env : Env) (envs : List Env)
    (st : DriverState) (hfresh : st.mountm.HasMount name = false)
    (hok : env.mountSucceeds) :
    ∃ args,
      (mountMany n name (env :: envs) st).1 =
        (Outcome.ok (n.mountpoint n.root name),
          [Event.createDest (n.mountpoint n.root name), Event.exec "weed" args]) ::
        List.replicate envs.length (Outcome.ok (n.mountpoint n.root name), []) ∧
      (mountMany n name (env :: envs) st).2.mountm.mounts name =
        some ⟨name, n.mountpoint n.root name, (envs.length : Int) + 1, [], false⟩ := by
  have hguard : ¬ (st.mountm.HasMount name = true ∧ st.mountm.Count name > 0) := by
    simp [hfresh]
  obtain ⟨args, hstep⟩ := Mount_first n env st name hguard hok
  have hnone : st.mountm.mounts name = none := by
    simpa [MountManager.HasMount] using hfresh
  have hr1 : (Mount n env st name).2.2.mountm.mounts name =
      some ⟨name, n.mountpoint n.root name, 1, [], false⟩ := by
    rw [hstep]; simp [MountManager.Add, hnone, MountManager.put]
  obtain ⟨ih1, ih2⟩ := mountMany_reuse n name envs (Mount n env st name).2.2
    ⟨name, n.mountpoint n.root name, 1, [], false⟩ hr1 Int.one_pos
  refine ⟨args, ?_, ?_⟩
  · simp only [mountMany, ih1]
    rw [hstep]
  · simp only [mountMany, ih2]
    congr 2
    ring

theorem unmountMany_shared (n : seaweedfsDriver) (name : String) (more : List Env) :
    ∀ (envs : List Env) (st : DriverState) (r : mount),
      st.mountm.mounts name = some r → (envs.length : Int) < r.refcount →
      ∃ st1 : DriverState,
        st1.mountm.mounts name = some { r with refcount := r.refcount - envs.length } ∧
        unmountMany n name (envs ++ more) st =
          (List.replicate envs.length (Outcome.ok (), []) ++ (unmountMany n name more st1).1,
            (unmountMany n name more st1).2) := by
  intro envs
  induction envs with
  | nil =>
    intro st r hr _
    exact ⟨st, by simp [hr], by simp⟩
  | cons env envs ih =>
    intro st r hr hlt
    have hgt : 1 < r.refcount := by
      simp only [List.length_cons] at hlt
      push_cast at hlt
      omega
    have hstep := Unmount_shared n env st name r hr hgt
    have hr1 : (Unmount n env st name).2.2.mountm.mounts name =
        some { r with refcount := r.refcount - 1 } := by
      rw [hstep]; simp [MountManager.put]
    have hlt1 : (envs.length : Int) < r.refcount - 1 := by
      simp only [List.length_cons] at hlt
      push_cast at hlt
      omega
    obtain ⟨st1, h1, h2⟩ := ih (Unmount n env st name).2.2 _ hr1 hlt1
    refine ⟨st1, ?_, ?_⟩
    · rw [h1]
      congr 2
      simp only [List.length_cons]
      push_cast
      ring
    · have happ : (env :: envs) ++ more = env :: (envs ++ more) := rfl
      rw [happ, unmountMany_cons, h2, hstep]
      simp [List.replicate_succ]

theorem countP_flatten_replicate_nil (p : Event → Bool) (m : Nat) :
    (List.replicate m ([] : List Event)).flatten.countP p = 0 := by
  induction m with
  | zero => rfl
  | succ m ih => simp [List.replicate_succ, ih]

/-! ## Non-negative refcounts -/

theorem NonNeg_put (m : MountManager) (name : String) (r : Option mount) (hm : m.NonNeg)
    (hr : ∀ x, r = some x → 0 ≤ x.refcount) : (m.put name r).NonNeg := by
  intro k x hx
  by_cases hk : k = name
  · simp [MountManager.put, hk] at hx
    exact hr x hx
  · simp [MountManager.put, hk] at hx
    exact hm k x hx

theorem NonNeg_Add (m : MountManager) (name hostdir : String) (hm : m.NonNeg) :
    (m.Add name hostdir).NonNeg := by
  unfold MountManager.Add
  cases m.mounts name with
  | some r => exact hm
  | none =>
    apply NonNeg_put _ _ _ hm
    intro x hx
    have hx2 : (⟨name, hostdir, 1, [], false⟩ : mount) = x := by simpa using hx
    rw [← hx2]
    exact Int.one_nonneg

theorem NonNeg_Increment (m : MountManager) (name : String) (hm : m.NonNeg) :
    (m.Increment name).NonNeg := by
  unfold MountManager.Increment
  cases hr : m.mounts name with
  | none => exact hm
  | some r =>
    apply NonNeg_put _ _ _ hm
    intro x hx
    have h0 := hm name r hr
    have hx2 : ({ r with refcount := r.refcount + 1 } : mount) = x := by simpa using hx
    rw [← hx2]
    show 0 ≤ r.refcount + 1
    omega

theorem NonNeg_Decrement (m m1 : MountManager) (name : String) (hm : m.NonNeg)
    (hd : m.Decrement name = some m1) : m1.NonNeg := by
  unfold MountManager.Decrement at hd
  cases hr : m.mounts name with
  | none => simp [hr] at hd
  | some r =>
    by_cases hpos : 0 < r.refcount
    · simp [hr, hpos] at hd
      rw [← hd]
      apply NonNeg_put _ _ _ hm
      intro x hx
      have hx2 : ({ r with refcount := r.refcount - 1 } : mount) = x := by simpa using hx
      rw [← hx2]
      show 0 ≤ r.refcount - 1
      omega
    · simp [hr, hpos] at hd

theorem NonNeg_DeleteIfNotManaged (m : MountManager) (name : String) (hm : m.NonNeg) :
    (m.DeleteIfNotManaged name).NonNeg := by
  unfold MountManager.DeleteIfNotManaged
  cases m.mounts name with
  | none => exact hm
  | some r =>
    simp only
    split
    · exact NonNeg_put _ _ _ hm (by simp)
    · exact hm

theorem unmountPhysical_NonNeg (env : Env) (st : DriverState) (name hostdir : String)
    (h : st.mountm.NonNeg) : (unmountPhysical env st name hostdir).2.2.mountm.NonNeg := by
  unfold unmountPhysical
  cases env.runErr with
  | some e => exact h
  | none =>
    cases env.removeAllErr <;> exact NonNeg_DeleteIfNotManaged _ _ h

theorem Mount_NonNeg (n : seaweedfsDriver) (env : Env) (st : DriverState) (name : String)
    (h : st.mountm.NonNeg) : (Mount n env st name).2.2.mountm.NonNeg := by
  unfold Mount
  simp only
  split
  · exact NonNeg_Increment _ _ h
  · cases env.createDestErr with
    | some e => exact h
    | none =>
      simp only [mountVolume]
      cases mountVolumeArgs n st.mountm name name (n.mountpoint n.root name) with
      | none => exact h
      | some args =>
        simp only [runMount]
        cases env.startErr with
        | some e => exact h
        | none =>
          cases env.signalErr with
          | some e => exact h
          | none =>
            cases env.releaseErr with
            | some e => exact h
            | none => exact NonNeg_Add _ _ _ h

theorem NonNeg_afterDecrement (m : MountManager) (name : String) (hm : m.NonNeg) :
    (m.afterDecrement name).NonNeg := by
  unfold MountManager.afterDecrement
  cases hd : m.Decrement name with
  | none => exact hm
  | some lowered => exact NonNeg_Decrement _ _ _ hm hd

theorem Unmount_NonNeg (n : seaweedfsDriver) (env : Env) (st : DriverState) (name : String)
    (h : st.mountm.NonNeg) : (Unmount n env st name).2.2.mountm.NonNeg := by
  unfold Unmount
  simp only
  split
  · split
    · exact NonNeg_afterDecrement _ _ h
    · exact unmountPhysical_NonNeg env _ name _ (NonNeg_afterDecrement _ _ h)
  · exact unmountPhysical_NonNeg env st name _ h

theorem runCalls_NonNeg (n : seaweedfsDriver) (calls : List Call) :
    ∀ st : DriverState, st.mountm.NonNeg → (runCalls n st calls).mountm.NonNeg := by
  induction calls with
  | nil => intro st h; exact h
  | cons c cs ih =>
    intro st h
    apply ih
    cases c with
    | mount env name => exact Mount_NonNeg n env st name h
    | unmount env name => exact Unmount_NonNeg n env st name h

/-! ## The claims -/

/-- C1: starting from a Mount Manager with no record for a volume name, `k ≥ 1`
Mount calls for that name whose directory creation and backend mount succeed
perform exactly one physical mount (the first call creates the directory and
starts `weed mount`, the other calls touch nothing outside), and all `k` calls
return the same mountpoint, `mountpoint(root, name)`. -/
theorem Mount_sequence_single_physical_mount (n : seaweedfsDriver) (st : DriverState)
    (name : String) (k : Nat) (envs : List Env)
    (hk : 1 ≤ k) (hlen : envs.length = k)
    (hfresh : st.mountm.HasMount name = false)
    (hok : ∀ env ∈ envs, env.mountSucceeds) :
    (∃ args, (mountMany n name envs st).1 =
        (Outcome.ok (n.mountpoint n.root name),
          [Event.createDest (n.mountpoint n.root name), Event.exec "weed" args]) ::
        List.replicate (k - 1) (Outcome.ok (n.mountpoint n.root name), [])) ∧
    ((mountMany n name envs st).1.map Prod.snd).flatten.countP Event.isMount = 1 ∧
    (mountMany n name envs st).1.map Prod.fst =
      List.replicate k (Outcome.ok (n.mountpoint n.root name)) := by
  cases envs with
  | nil => simp at hlen; omega
  | cons env rest =>
    obtain ⟨args, hres, -⟩ :=
      mountMany_fresh n name env rest st hfresh (hok env (List.mem_cons_self _ _))
    have hk1 : k - 1 = rest.length := by
      simp only [List.length_cons] at hlen; omega
    have hk2 : k = rest.length + 1 := by omega
    refine ⟨⟨args, by rw [hres, hk1]⟩, ?_, ?_⟩
    · rw [hres]
      simp [Event.isMount, List.countP_cons, countP_flatten_replicate_nil]
    · rw [hres, hk2]
      simp [List.replicate_succ]

/-- C1 at three `Mount` calls for "vol" on a fresh plugin, every external step succeeding. -/
theorem Mount_sequence_single_physical_mount_witness :
    ((mountMany sampleDriver "vol" [Env.allOk, Env.allOk, Env.allOk] DriverState.init).1.map
        Prod.snd).flatten.countP Event.isMount = 1 ∧
    (mountMany sampleDriver "vol" [Env.allOk, Env.allOk, Env.allOk] DriverState.init).1.map
        Prod.fst =
      List.replicate 3 (Outcome.ok (sampleDriver.mountpoint sampleDriver.root "vol")) :=
  (Mount_sequence_single_physical_mount sampleDriver DriverState.init "vol" 3
    [Env.allOk, Env.allOk, Env.allOk] (by decide) rfl rfl (by decide)).2

/-- C2: when the record of `name` has a refcount above 1, `Unmount(name)`
returns success, lowers the refcount by exactly 1 and does nothing outside (no
`umount` command, no directory removal: its trace is empty); hence of `k`
Unmount calls that follow `k` successful Mount calls, the calls `1..k-1` return
success without any external step. -/
theorem Unmount_refcount_above_one (n : seaweedfsDriver) (env : Env) (st : DriverState)
    (name : String) (k : Nat) (menvs uenvs : List Env) (st0 : DriverState)
    (hcount : 1 < st.mountm.Count name)
    (hm : menvs.length = k) (hu : uenvs.length = k)
    (hfresh : st0.mountm.HasMount name = false)
    (hok : ∀ e ∈ menvs, e.mountSucceeds) :
    ((Unmount n env st name).1 = Outcome.ok () ∧
      (Unmount n env st name).2.2.mountm.Count name = st.mountm.Count name - 1 ∧
      (Unmount n env st name).2.1 = []) ∧
    (unmountMany n name uenvs (mountMany n name menvs st0).2).1.take (k - 1) =
      List.replicate (k - 1) (Outcome.ok (), []) := by
  constructor
  · cases hr : st.mountm.mounts name with
    | none => simp [MountManager.Count, hr] at hcount
    | some r =>
      have hgt : 1 < r.refcount := by simpa [MountManager.Count, hr] using hcount
      rw [Unmount_shared n env st name r hr hgt]
      simp [MountManager.Count, MountManager.put, hr]
  · cases menvs with
    | nil =>
      simp only [List.length_nil] at hm
      subst hm
      simp
    | cons menv mrest =>
      obtain ⟨-, -, hrec⟩ :=
        mountMany_fresh n name menv mrest st0 hfresh (hok menv (List.mem_cons_self _ _))
      have hk : k = mrest.length + 1 := by simpa using hm.symm
      have hsplit : uenvs = uenvs.take (k - 1) ++ uenvs.drop (k - 1) :=
        (List.take_append_drop _ _).symm
      have hlen : (uenvs.take (k - 1)).length = k - 1 := by
        rw [List.length_take]; omega
      obtain ⟨st1, -, hrun⟩ :=
        unmountMany_shared n name (uenvs.drop (k - 1)) (uenvs.take (k - 1)) _ _ hrec
          (by rw [hlen]; show ((k - 1 : Nat) : Int) < (mrest.length : Int) + 1; omega)
      rw [hsplit, hrun, hlen]
      simp

/-- C2 at the state left by two `Mount` calls for "vol" on a fresh plugin. -/
theorem Unmount_refcount_above_one_witness :
    (Unmount sampleDriver Env.allOk
        (mountMany sampleDriver "vol" [Env.allOk, Env.allOk] DriverState.init).2 "vol").2.1 = [] ∧
    (unmountMany sampleDriver "vol" [Env.allOk, Env.allOk]
        (mountMany sampleDriver "vol" [Env.allOk, Env.allOk] DriverState.init).2).1.take (2 - 1) =
      List.replicate (2 - 1) (Outcome.ok (), []) :=
  have h := Unmount_refcount_above_one sampleDriver Env.allOk
    (mountMany sampleDriver "vol" [Env.allOk, Env.allOk] DriverState.init).2 "vol" 2
    [Env.allOk, Env.allOk] [Env.allOk, Env.allOk] DriverState.init
    (by decide) rfl rfl rfl (by decide)
  ⟨h.1.2.2, h.2⟩

/-- C3: for every `k ≥ 1` and every volume name without a prior record, after
`k` successful Mount calls followed by `k` Unmount calls whose `umount` command
and directory removal succeed, exactly one `umount` invocation has occurred, it
occurred in the `k`-th Unmount call, and the Mount Manager has no record for the
name afterwards. -/
theorem Mount_k_Unmount_k (n : seaweedfsDriver) (st : DriverState) (name : String)
    (k : Nat) (menvs uenvs : List Env)
    (hk : 1 ≤ k) (hm : menvs.length = k) (hu : uenvs.length = k)
    (hfresh : st.mountm.HasMount name = false)
    (hmok : ∀ e ∈ menvs, e.mountSucceeds) (huok : ∀ e ∈ uenvs, e.unmountSucceeds) :
    (unmountMany n name uenvs (mountMany n name menvs st).2).1 =
      List.replicate (k - 1) (Outcome.ok (), []) ++
        [(Outcome.ok (), [Event.run ("umount " ++ n.mountpoint n.root name),
          Event.removeAll (n.mountpoint n.root name)])] ∧
    ((unmountMany n name uenvs (mountMany n name menvs st).2).1.map Prod.snd).flatten.countP
        (Event.isUmount (n.mountpoint n.root name)) = 1 ∧
    (unmountMany n name uenvs (mountMany n name menvs st).2).2.mountm.HasMount name = false := by
  cases menvs with
  | nil => simp at hm; omega
  | cons menv mrest =>
    obtain ⟨-, -, hrec⟩ :=
      mountMany_fresh n name menv mrest st hfresh (hmok menv (List.mem_cons_self _ _))
    have hkm : k = mrest.length + 1 := by simpa using hm.symm
    have hne : uenvs ≠ [] := by
      intro h; rw [h] at hu; simp at hu; omega
    obtain ⟨front, last, hsplit⟩ : ∃ front last, uenvs = front ++ [last] :=
      ⟨uenvs.dropLast, uenvs.getLast hne, (List.dropLast_append_getLast hne).symm⟩
    subst hsplit
    have hlen : front.length = k - 1 := by
      simp only [List.length_append, List.length_singleton] at hu; omega
    obtain ⟨st1, hrec1, hrun⟩ :=
      unmountMany_shared n name [last] front _ _ hrec
        (by rw [hlen]; show ((k - 1 : Nat) : Int) < (mrest.length : Int) + 1; omega)
    have hone : (mrest.length : Int) + 1 - (front.length : Int) = 1 := by
      rw [hlen]; omega
    obtain ⟨l1, l2, l3⟩ := Unmount_last n last st1 name _ hrec1 hone rfl
      (huok _ (by simp))
    have hfinal : unmountMany n name (front ++ [last]) (mountMany n name (menv :: mrest) st).2 =
        (List.replicate (k - 1) (Outcome.ok (), []) ++
          [(Outcome.ok (), [Event.run ("umount " ++ n.mountpoint n.root name),
            Event.removeAll (n.mountpoint n.root name)])],
          (Unmount n last st1 name).2.2) := by
      rw [hrun, hlen, unmountMany_cons, l1, l2]
      rfl
    rw [hfinal]
    refine ⟨rfl, ?_, l3⟩
    simp [Event.isUmount, List.countP_cons, countP_flatten_replicate_nil, List.countP_append]

/-- C3 at three `Mount` calls followed by three `Unmount` calls for "vol". -/
theorem Mount_k_Unmount_k_witness :
    ((unmountMany sampleDriver "vol" [Env.allOk, Env.allOk, Env.allOk]
        (mountMany sampleDriver "vol" [Env.allOk, Env.allOk, Env.allOk]
          DriverState.init).2).1.map Prod.snd).flatten.countP
        (Event.isUmount (sampleDriver.mountpoint sampleDriver.root "vol")) = 1 ∧
    (unmountMany sampleDriver "vol" [Env.allOk, Env.allOk, Env.allOk]
        (mountMany sampleDriver "vol" [Env.allOk, Env.allOk, Env.allOk]
          DriverState.init).2).2.mountm.HasMount "vol" = false :=
  (Mount_k_Unmount_k sampleDriver DriverState.init "vol" 3
    [Env.allOk, Env.allOk, Env.allOk] [Env.allOk, Env.allOk, Env.allOk]
    (by decide) rfl rfl rfl (by decide) (by decide)).2

/-- C4, as the code has it: when the `umount` command that `Unmount(name)`
invokes fails, `Unmount` returns that error, runs nothing else (the directory is
not removed) and removes no record. The state is the one before the call but
for one case: a record of `name` whose refcount was 1 has had it lowered to 0,
by the `Decrement` that precedes the command. -/
theorem Unmount_umount_failure (n : seaweedfsDriver) (env : Env) (st : DriverState)
    (name e : String)
    (hfail : env.runErr = some e)
    (hinv : Event.run ("umount " ++ n.mountpoint n.root name) ∈ (Unmount n env st name).2.1) :
    (Unmount n env st name).1 = Outcome.error e ∧
    (Unmount n env st name).2.1 = [Event.run ("umount " ++ n.mountpoint n.root name)] ∧
    (Unmount n env st name).2.2.runningMounts = st.runningMounts ∧
    (∀ k, (Unmount n env st name).2.2.mountm.HasMount k = st.mountm.HasMount k) ∧
    (∀ k, k ≠ name → (Unmount n env st name).2.2.mountm.mounts k = st.mountm.mounts k) ∧
    (st.mountm.Count name ≠ 1 → (Unmount n env st name).2.2 = st) ∧
    (∀ r, st.mountm.mounts name = some r →
      (Unmount n env st name).2.2.mountm.mounts name =
        some (if r.refcount = 1 then { r with refcount := 0 } else r)) := by
  cases hr : st.mountm.mounts name with
  | none =>
    have hU : Unmount n env st name =
        (Outcome.error e, [Event.run ("umount " ++ n.mountpoint n.root name)], st) := by
      simp [Unmount, MountManager.HasMount, hr, unmountPhysical, hfail]
    rw [hU]
    simp [hr]
  | some r =>
    by_cases hgt : 1 < r.refcount
    · rw [Unmount_shared n env st name r hr hgt] at hinv
      simp at hinv
    · by_cases h1 : r.refcount = 1
      · have hU : Unmount n env st name =
            (Outcome.error e, [Event.run ("umount " ++ n.mountpoint n.root name)],
              ⟨st.mountm.put name (some { r with refcount := 0 }), st.runningMounts⟩) := by
          simp [Unmount, MountManager.HasMount, MountManager.Count, MountManager.afterDecrement,
            MountManager.Decrement, hr, h1, unmountPhysical, hfail]
        rw [hU]
        refine ⟨rfl, rfl, rfl, ?_, ?_, ?_, ?_⟩
        · intro k
          by_cases hk : k = name
          · subst hk; simp [MountManager.HasMount, MountManager.put, hr]
          · simp [MountManager.HasMount, MountManager.put, hk]
        · intro k hk
          simp [MountManager.put, hk]
        · intro hne
          exact absurd (by simp [MountManager.Count, hr, h1]) hne
        · intro r2 hr2
          have hrr : r = r2 := by simpa using hr2
          subst hrr
          simp [MountManager.put, h1]
      · have hpos : ¬ 0 < r.refcount := by omega
        have hU : Unmount n env st name =
            (Outcome.error e, [Event.run ("umount " ++ n.mountpoint n.root name)], st) := by
          simp [Unmount, MountManager.HasMount, MountManager.Count, MountManager.afterDecrement,
            MountManager.Decrement, hr, hgt, hpos, unmountPhysical, hfail]
        rw [hU]
        refine ⟨rfl, rfl, rfl, fun _ => rfl, fun _ _ => rfl, fun _ => rfl, ?_⟩
        intro r2 hr2
        have hrr : r = r2 := by simpa [hr] using hr2
        subst hrr
        simp [hr, h1]

/-- C4 (as the code has it) at a failing `umount` command, once over a record of
refcount 1 and once, as a retry, over the record of refcount 0 that the first
call left: the retry runs the command again and leaves the state as it is. -/
theorem Unmount_umount_failure_witness :
    ((Unmount sampleDriver Env.umountFails DriverState.mountedOnce "vol").1 =
        Outcome.error "umount: target is busy" ∧
      (Unmount sampleDriver Env.umountFails DriverState.mountedOnce "vol").2.1 =
        [Event.run ("umount " ++ sampleDriver.mountpoint sampleDriver.root "vol")]) ∧
    ((Unmount sampleDriver Env.umountFails DriverState.afterFailedUmount "vol").1 =
        Outcome.error "umount: target is busy" ∧
      (Unmount sampleDriver Env.umountFails DriverState.afterFailedUmount "vol").2.2 =
        DriverState.afterFailedUmount) :=
  have h := Unmount_umount_failure sampleDriver Env.umountFails DriverState.mountedOnce "vol"
    "umount: target is busy" rfl (by decide)
  have h2 := Unmount_umount_failure sampleDriver Env.umountFails DriverState.afterFailedUmount
    "vol" "umount: target is busy" rfl (by decide)
  ⟨⟨h.1, h.2.1⟩, ⟨h2.1, h2.2.2.2.2.2.1 (by decide)⟩⟩

/-- C4, as stated, fails: with a record of refcount 1, an `Unmount` whose
`umount` command fails returns the error, but the refcount is 0 afterwards and
not 1 as before the call. -/
theorem Unmount_umount_failure_lowers_refcount :
    Env.umountFails.runErr = some "umount: target is busy" ∧
    (Unmount sampleDriver Env.umountFails DriverState.mountedOnce "vol").1 =
      Outcome.error "umount: target is busy" ∧
    (Unmount sampleDriver Env.umountFails DriverState.mountedOnce "vol").2.1 =
      [Event.run "umount /var/lib/docker-volumes/netshare/seaweedfs/vol"] ∧
    DriverState.mountedOnce.mountm.Count "vol" = 1 ∧
    (Unmount sampleDriver Env.umountFails DriverState.mountedOnce "vol").2.2.mountm.Count "vol"
      = 0 := by
  decide

/-- C5: in every state reached from an empty Mount Manager table by a finite
sequence of Mount and Unmount calls on any names, whatever the external steps
answer, the refcount of every volume is at least 0; `Unmount` keeps every
table without a negative refcount that way, and in particular an `Unmount` of a
record whose refcount is 0 leaves the count of that name at 0: the `Decrement`
it calls fails and changes nothing. -/
theorem refcount_never_negative (n : seaweedfsDriver) (running : String → Option Int)
    (calls : List Call) (name : String) :
    0 ≤ (runCalls n ⟨MountManager.empty, running⟩ calls).mountm.Count name ∧
    (∀ r, (runCalls n ⟨MountManager.empty, running⟩ calls).mountm.mounts name = some r →
      0 ≤ r.refcount) ∧
    (∀ (env : Env) (st : DriverState), st.mountm.NonNeg →
      (Unmount n env st name).2.2.mountm.NonNeg) ∧
    (∀ (env : Env) (st : DriverState),
      st.mountm.HasMount name = true → st.mountm.Count name = 0 →
        st.mountm.afterDecrement name = st.mountm ∧
        (Unmount n env st name).2.2.mountm.Count name = 0) := by
  have hinit : (⟨MountManager.empty, running⟩ : DriverState).mountm.NonNeg := by
    intro k r hr
    simp [MountManager.empty] at hr
  have hall := runCalls_NonNeg n calls _ hinit
  refine ⟨?_, fun r hr => hall name r hr, fun env st h => Unmount_NonNeg n env st name h, ?_⟩
  · unfold MountManager.Count
    cases hr : (runCalls n ⟨MountManager.empty, running⟩ calls).mountm.mounts name with
    | none => exact le_refl _
    | some r => exact hall name r hr
  · intro env st hhas hzero
    cases hr : st.mountm.mounts name with
    | none => simp [MountManager.HasMount, hr] at hhas
    | some r =>
      have h0 : r.refcount = 0 := by simpa [MountManager.Count, hr] using hzero
      have hdec : st.mountm.afterDecrement name = st.mountm := by
        simp [MountManager.afterDecrement, MountManager.Decrement, hr, h0]
      have hU : Unmount n env st name =
          unmountPhysical env st name (n.mountpoint n.root name) := by
        simp [Unmount, MountManager.HasMount, MountManager.Count, hr, h0, hdec]
      refine ⟨hdec, ?_⟩
      rw [hU]
      unfold unmountPhysical
      cases env.runErr with
      | some e => exact hzero
      | none =>
        have hdel : (st.mountm.DeleteIfNotManaged name).Count name = 0 := by
          unfold MountManager.DeleteIfNotManaged
          simp only [hr]
          split
          · simp [MountManager.Count, MountManager.put]
          · exact hzero
        cases env.removeAllErr <;> exact hdel

/-- The first `Mount` of a name without a record, its directory creation and
backend mount succeeding, returns the mountpoint and leaves the volume
registered with refcount exactly 1. -/
theorem Mount_registers_refcount_one (n : seaweedfsDriver) (env : Env) (st : DriverState)
    (name : String)
    (hfresh : st.mountm.HasMount name = false)
    (henv : env.mountSucceeds) :
    (Mount n env st name).1 = Outcome.ok (n.mountpoint n.root name) ∧
    (Mount n env st name).2.2.mountm.HasMount name = true ∧
    (Mount n env st name).2.2.mountm.Count name = 1 := by
  have hguard : ¬ (st.mountm.HasMount name = true ∧ st.mountm.Count name > 0) := by
    simp [hfresh]
  have hnone : st.mountm.mounts name = none := by
    simpa [MountManager.HasMount] using hfresh
  obtain ⟨args, hstep⟩ := Mount_first n env st name hguard henv
  rw [hstep]
  simp [MountManager.Add, hnone, MountManager.put, MountManager.HasMount, MountManager.Count]

/-- C7: when the Mount Manager holds no reference with refcount above 0 for the
name: if directory creation fails, `Mount(name)` returns that error and its only
external step is that attempt (the backend mount is not tried); if directory
creation succeeds and the backend mount returns an error, `Mount(name)` returns
that error, the state (the Mount Manager table included) is unchanged, and the
trace holds the directory creation and the mount attempt but no removal. -/
theorem Mount_failure_paths (n : seaweedfsDriver) (st : DriverState) (name : String)
    (hguard : ¬ (st.mountm.HasMount name = true ∧ st.mountm.Count name > 0)) :
    (∀ (env : Env) (e : String), env.createDestErr = some e →
      Mount n env st name =
        (Outcome.error e, [Event.createDest (n.mountpoint n.root name)], st)) ∧
    (∀ (env : Env) (e : String), env.createDestErr = none →
      (mountVolume n env st name name (n.mountpoint n.root name)).1 = Outcome.error e →
        (Mount n env st name).1 = Outcome.error e ∧
        (Mount n env st name).2.2 = st ∧
        (∃ args, (Mount n env st name).2.1 =
          [Event.createDest (n.mountpoint n.root name), Event.exec "weed" args]) ∧
        (∀ ev ∈ (Mount n env st name).2.1, ev.isRemoveAll = false)) := by
  constructor
  · intro env e he
    unfold Mount
    simp only [hguard, if_false, he]
  · intro env e he hmv
    cases hargs : mountVolumeArgs n st.mountm name name (n.mountpoint n.root name) with
    | none => exact absurd hargs (mountVolumeArgs_ne_none _ _ _ _ _)
    | some args =>
      have hmv2 : (runMount env st name args).1 = Outcome.error e := by
        simpa [mountVolume, hargs] using hmv
      have hst : (runMount env st name args).2.2 = st :=
        runMount_not_ok env st name args (by rw [hmv2]; simp)
      have htr := runMount_trace env st name args
      have hM : Mount n env st name =
          (Outcome.error e,
            [Event.createDest (n.mountpoint n.root name), Event.exec "weed" args], st) := by
        unfold Mount
        simp only [hguard, if_false, he, mountVolume, hargs]
        rcases hrm : runMount env st name args with ⟨o, tr, st1⟩
        rw [hrm] at hmv2 hst htr
        simp only at hmv2 hst htr
        subst hmv2 hst htr
        rfl
      rw [hM]
      refine ⟨rfl, rfl, ⟨args, rfl⟩, ?_⟩
      intro ev hev
      simp at hev
      rcases hev with hev | hev <;> subst hev <;> rfl

/-- C7 on a fresh plugin: once with a failing directory creation, once with a `weed` binary that cannot be started. -/
theorem Mount_failure_paths_witness :
    Mount sampleDriver Env.createDestFails DriverState.init "vol" =
      (Outcome.error "mkdir: permission denied",
        [Event.createDest (sampleDriver.mountpoint sampleDriver.root "vol")],
        DriverState.init) ∧
    (Mount sampleDriver Env.startFails DriverState.init "vol").1 =
      Outcome.error "exec: weed: executable file not found" ∧
    (Mount sampleDriver Env.startFails DriverState.init "vol").2.2 = DriverState.init :=
  have h := Mount_failure_paths sampleDriver DriverState.init "vol" (by decide)
  have h2 := h.2 Env.startFails "exec: weed: executable file not found" rfl (by decide)
  ⟨h.1 Env.createDestFails "mkdir: permission denied" rfl, h2.1, h2.2.1⟩

/-- C8: for every non-empty host without '/' and ':', every port `p` that is a
non-negative integer in the range of `int`, written in decimal, and every
`rest`, `parseSource(host:p/rest)` returns `(host, p, "/" ++ rest)`. -/
theorem parseSource_host_port_path (host rest : String) (port : Nat)
    (hne : host ≠ "") (hs : '/' ∉ host.data) (hc : ':' ∉ host.data)
    (hport : port < 2 ^ (intSize - 1)) :
    parseSource (host ++ ":" ++ formatInt (port : Int) ++ "/" ++ rest) =
      some (host, (port : Int), "/" ++ rest) := by
  have hfmt : formatInt (port : Int) = Nat.repr port := rfl
  rw [hfmt, parseSource_host_port host (Nat.repr port) rest hne hs hc (repr_no_sep port).1
    (repr_no_sep port).2, Atoi_repr port hport]
  rfl

/-- C8 at the source "host:1234/remote/dir". -/
theorem parseSource_host_port_path_witness :
    parseSource "host:1234/remote/dir" = some ("host", 1234, "/remote/dir") :=
  parseSource_host_port_path "host" "remote/dir" 1234 (by decide) (by decide) (by decide)
    (by decide)

/-- C9: for every source string that begins with '/', `parseSource(source)`
returns the endpoint "", the port 0 and the whole source string, unchanged, as
the path. -/
theorem parseSource_leading_slash (source : String)
    (h : source.data.head? = some '/') :
    parseSource source = some ("", 0, source) := by
  have hfirst : (Split source '/')[0]? = some "" := by
    unfold Split
    cases hd : source.data with
    | nil => simp [hd] at h
    | cons c cs =>
      have hc : c = '/' := by simpa [hd] using h
      subst hc
      simp [splitChars]
  have hjoin : Join (Split source '/') "/" = source := Join_Split source '/'
  unfold parseSource
  simp only [hfirst, if_true, hjoin]

/-- C9 at the source "/just/a/path". -/
theorem parseSource_leading_slash_witness :
    parseSource "/just/a/path" = some ("", 0, "/just/a/path") :=
  parseSource_leading_slash "/just/a/path" (by decide)

/-- C10: for every non-empty host without '/' and ':', every port text without
'/' and ':' that `strconv.Atoi` rejects, and every `rest`,
`parseSource(host:portText/rest)` does not fail and returns
`(host, 0, "/" ++ rest)`. -/
theorem parseSource_invalid_port (host portText rest : String)
    (hne : host ≠ "") (hs : '/' ∉ host.data) (hc : ':' ∉ host.data)
    (ps : '/' ∉ portText.data) (pc : ':' ∉ portText.data)
    (hbad : Atoi portText = none) :
    parseSource (host ++ ":" ++ portText ++ "/" ++ rest) = some (host, 0, "/" ++ rest) := by
  rw [parseSource_host_port host portText rest hne hs hc ps pc, hbad]
  rfl

/-- C10 at the source "host:notanumber/remote". -/
theorem parseSource_invalid_port_witness :
    parseSource "host:notanumber/remote" = some ("host", 0, "/remote") :=
  parseSource_invalid_port "host" "notanumber" "remote" (by decide) (by decide) (by decide)
    (by decide) (by decide) (by decide)

/-! ## Lemmas for the path, the option maps and the registry -/

theorem Split_first_empty (source : String) (tail : List String)
    (hs : Split source '/' = "" :: tail) (hne : source ≠ "") :
    source.data.head? = some '/' := by
  unfold Split at hs
  cases hd : source.data with
  | nil =>
    exfalso
    apply hne
    exact String.ext hd
  | cons c cs =>
    by_cases hc : c = '/'
    · simp [hc]
    · exfalso
      rw [hd] at hs
      unfold splitChars at hs
      simp only [hc, if_false] at hs
      cases hsp : splitChars '/' cs with
      | nil => exact splitChars_ne_nil _ _ hsp
      | cons q qs =>
        rw [hsp] at hs
        simp only [List.map_cons, List.cons.injEq] at hs
        have h2 := congrArg String.data hs.1
        simp at h2

theorem slash_append_head (x : String) : ("/" ++ x).data.head? = some '/' := by
  simp [String.data_append]

theorem indexInt_isSome {α : Type} (xs : List α) (i : Int) :
    (indexInt xs i).isSome = true ↔ 0 ≤ i ∧ i < (xs.length : Int) := by
  unfold indexInt
  by_cases h0 : 0 ≤ i
  · simp only [h0, if_true, true_and]
    rw [Option.isSome_iff_exists]
    constructor
    · rintro ⟨a, ha⟩
      have hlt := (List.getElem?_eq_some.mp ha).1
      omega
    · intro h4
      have hlt : i.toNat < xs.length := by omega
      exact ⟨xs[i.toNat], List.getElem?_eq_getElem hlt⟩
  · simp [h0]

theorem lookup_filter_ne (m : StrMap) (k j : String) (h : j ≠ k) :
    (m.filter (fun kv => kv.1 != k)).lookup j = m.lookup j := by
  induction m with
  | nil => rfl
  | cons kv rest ih =>
    obtain ⟨a, b⟩ := kv
    by_cases ha : a = k
    · subst ha
      have hj : (j == a) = false := by simpa using h
      simp [List.filter_cons, List.lookup_cons, hj, ih]
    · have hak : (a != k) = true := by simpa using ha
      simp only [List.filter_cons, hak, if_true, List.lookup_cons, ih]

theorem lookup_set (m : StrMap) (k v j : String) :
    (StrMap.set m k v).lookup j = if j = k then some v else m.lookup j := by
  unfold StrMap.set
  by_cases h : j = k
  · subst h; simp
  · have hj : (j == k) = false := by simpa using h
    simp [List.lookup_cons, hj, h, lookup_filter_ne m k j h]

theorem lookup_copyInto (src dst : StrMap) (k : String) :
    (StrMap.copyInto src dst).lookup k =
      match src.lookup k with
      | some v => some v
      | none => dst.lookup k := by
  induction src with
  | nil => rfl
  | cons kv rest ih =>
    obtain ⟨a, b⟩ := kv
    show (StrMap.set (StrMap.copyInto rest dst) a b).lookup k = _
    rw [lookup_set, ih]
    by_cases h : k = a
    · subst h; simp
    · have hk : (k == a) = false := by simpa using h
      simp [List.lookup_cons, hk, h]

theorem len_eq_zero (m : StrMap) : StrMap.len m = 0 ↔ m = [] := by
  unfold StrMap.len
  rw [List.length_eq_zero, List.dedup_eq_nil, List.map_eq_nil_iff]

theorem lookup_merge (src defaults : StrMap) (k : String) :
    (merge src defaults).lookup k =
      match src.lookup k with
      | some v => some v
      | none => defaults.lookup k := by
  unfold merge
  rw [List.lookup_append]
  cases hs : src.lookup k with
  | some v => rfl
  | none =>
    simp only [Option.none_or]
    induction defaults with
    | nil => rfl
    | cons kv rest ih =>
      obtain ⟨a, b⟩ := kv
      by_cases ha : k = a
      · subst ha
        simp [List.filter_cons, hs]
      · have hk : (k == a) = false := by simpa using ha
        by_cases hsa : (src.lookup a).isNone = true
        · simp [List.filter_cons, hsa, List.lookup_cons, hk, ih]
        · simp [List.filter_cons, hsa, List.lookup_cons, hk, ih]

theorem splitChars_parts_no_sep (sep : Char) (cs : List Char) :
    ∀ p ∈ splitChars sep cs, sep ∉ p := by
  induction cs with
  | nil =>
    intro p hp
    simp [splitChars] at hp
    simp [hp]
  | cons c cs ih =>
    intro p hp
    unfold splitChars at hp
    by_cases hc : c = sep
    · simp only [hc, if_true, List.mem_cons] at hp
      rcases hp with hp | hp
      · simp [hp]
      · exact ih p hp
    · simp only [hc, if_false] at hp
      cases hsp : splitChars sep cs with
      | nil => exact absurd hsp (splitChars_ne_nil sep cs)
      | cons q qs =>
        rw [hsp] at hp ih
        simp only [List.mem_cons] at hp
        rcases hp with hp | hp
        · subst hp
          intro hmem
          rcases List.mem_cons.mp hmem with h | h
          · exact hc h.symm
          · exact ih q (by simp) h
        · exact ih p (by simp [hp])

theorem Split_parts_no_sep (s : String) (sep : Char) :
    ∀ t ∈ Split s sep, sep ∉ t.data := by
  intro t ht
  unfold Split at ht
  obtain ⟨p, hp, rfl⟩ := List.mem_map.mp ht
  exact splitChars_parts_no_sep sep s.data p hp

theorem parseMagnitude_repr (m : Nat) : parseMagnitude (Nat.repr m).data = some m := by
  obtain ⟨hne, -, hval⟩ := repr_numeral m
  have hv := hval []
  simp only [List.append_nil] at hv
  unfold parseMagnitude
  cases hd : (Nat.repr m).data with
  | nil => exact absurd hd hne
  | cons c cs =>
    rw [hd] at hv
    simp only [hv]
    rfl

theorem Atoi_neg_repr (m : Nat) (h : m ≤ 2 ^ (intSize - 1)) :
    Atoi ("-" ++ Nat.repr m) = some (-(m : Int)) := by
  have hd : ("-" ++ Nat.repr m).data = '-' :: (Nat.repr m).data := by
    simp [String.data_append]
  unfold Atoi
  simp only [hd, if_true, parseMagnitude_repr, h]

theorem formatInt_eq (i : Int) :
    formatInt i = if 0 ≤ i then Nat.repr i.toNat else "-" ++ Nat.repr (-i).toNat := by
  cases i with
  | ofNat k => simp [formatInt]
  | negSucc k =>
    have hns : Int.negSucc k = -((k : Int) + 1) := Int.negSucc_eq k
    have hneg : ¬ (0 : Int) ≤ Int.negSucc k := by rw [hns]; omega
    have hk : (-Int.negSucc k).toNat = k + 1 := by rw [hns]; omega
    simp only [formatInt, hneg, if_false, hk]

theorem Atoi_formatInt (i : Int)
    (hlo : -(2 ^ (intSize - 1) : Int) ≤ i) (hhi : i < (2 ^ (intSize - 1) : Int)) :
    Atoi (formatInt i) = some i := by
  have e : (2 : Int) ^ (intSize - 1) = 9223372036854775808 := by norm_num [intSize]
  have eN : (2 : Nat) ^ (intSize - 1) = 9223372036854775808 := by norm_num [intSize]
  rw [e] at hlo hhi
  cases i with
  | ofNat k =>
    have hc : Int.ofNat k = (k : Int) := rfl
    rw [hc] at hhi
    have hk : k < 2 ^ (intSize - 1) := by rw [eN]; omega
    exact Atoi_repr k hk
  | negSucc k =>
    have hns : Int.negSucc k = -((k : Int) + 1) := Int.negSucc_eq k
    rw [hns] at hlo
    have hk : k + 1 ≤ 2 ^ (intSize - 1) := by rw [eN]; omega
    have h := Atoi_neg_repr (k + 1) hk
    have hv : -((k + 1 : Nat) : Int) = Int.negSucc k := by rw [hns]; push_cast; ring
    rw [hv] at h
    exact h

/-! ## The claims on the path, the options, the registry and the bounds -/

/-- C11, as the code has it: for every source string other than the empty one
(strings without any '/' and strings starting with '/' included), the remote
path that `parseSource` returns as its third component begins with '/'. -/
theorem parseSource_path_leading_slash (source : String) (hne : source ≠ "") :
    ∃ host port path, parseSource source = some (host, port, path) ∧
      path.data.head? = some '/' := by
  unfold parseSource
  cases hs : Split source '/' with
  | nil => exact absurd hs (Split_ne_nil _ _)
  | cons first tail =>
    simp only [List.getElem?_cons_zero, sliceFrom1]
    by_cases hf : first = ""
    · subst hf
      have hj : Join ("" :: tail) "/" = source := by
        rw [← hs]; exact Join_Split source '/'
      simp only [if_true, hj]
      exact ⟨"", 0, source, rfl, Split_first_empty source tail hs hne⟩
    · simp only [hf, if_false]
      split
      · next hlen =>
        cases hp : Split first ':' with
        | nil => rw [hp] at hlen; simp at hlen
        | cons h0 t =>
          cases t with
          | nil => rw [hp] at hlen; simp at hlen
          | cons h1 t1 =>
            simp only [List.getElem?_cons_zero, List.getElem?_cons_succ]
            cases hA : Atoi h1 with
            | none => exact ⟨h0, 0, _, rfl, slash_append_head _⟩
            | some val => exact ⟨h0, val, _, rfl, slash_append_head _⟩
      · exact ⟨first, 0, _, rfl, slash_append_head _⟩

/-- C11 (as the code has it) at the source "host", which has no '/'. -/
theorem parseSource_path_leading_slash_witness :
    ∃ host port path, parseSource "host" = some (host, port, path) ∧
      path.data.head? = some '/' :=
  parseSource_path_leading_slash "host" (by decide)

/-- C11, as stated, fails at the empty source: its only segment is empty, so
the source itself is returned as the path, and the empty path does not begin
with '/'. -/
theorem parseSource_empty_source_empty_path :
    parseSource "" = some ("", 0, "") ∧ (String.data "").head? = none := by
  decide

/-- C12: for every driver default option map `D` (`seaweedfsOpts`), every
per-volume option map `S` and every key `k`, the map returned by
`mountOptions(S)` maps `k` to `S[k]` when `k` is in `S`, otherwise to `D[k]`
when `k` is in `D`, and has no entry for `k` otherwise; with `D = {opt: "a,b"}`
and `S = {opt: "c,d"}` the result has `opt: "c,d"`; and the result is the empty
map when both `D` and `S` are empty. -/
theorem mountOptions_override (n : seaweedfsDriver) (src : StrMap) (k : String) :
    ((mountOptions n src).lookup k =
      match src.lookup k with
      | some v => some v
      | none => n.seaweedfsOpts.lookup k) ∧
    (mountOptions optDriver [("opt", "c,d")]).lookup "opt" = some "c,d" ∧
    mountOptions { n with seaweedfsOpts := [] } [] = EmptyMap ∧
    StrMap.len (mountOptions { n with seaweedfsOpts := [] } []) = 0 := by
  refine ⟨?_, by decide, ?_, ?_⟩
  · unfold mountOptions
    split
    · next h =>
      obtain ⟨h1, h2⟩ := h
      rw [(len_eq_zero _).mp h1, (len_eq_zero _).mp h2]
      rfl
    · simp only
      rw [lookup_copyInto, lookup_copyInto]
      cases src.lookup k with
      | some v => rfl
      | none =>
        cases n.seaweedfsOpts.lookup k with
        | some v => rfl
        | none => rfl
  · simp [mountOptions, StrMap.len]
  · simp [mountOptions, StrMap.len, EmptyMap]

/-- C13: for every volume name, source and destination directory, the process
that `mountVolume` has `runMount` start is `weed` with exactly the arguments
"mount", "-dir=" dest, "-filer=" host ":" port text, "-filer.path=" path,
followed by the option tokens, where `(h, p, path) = parseSource(source)`, host
is `h` or, when `h` is empty, the configured filer, and port is `p` or, when `p`
is 0, the configured filer port. The port text is the decimal numeral of the
port (the digits of its absolute value, after a '-' when it is negative), which
`strconv.Atoi` reads back as the port. The option tokens are the pieces of the
merged options' "seaweedfsopts" value between its commas (joined with ","
they give the value back, and none contains a comma), and there is none when
the key is absent; the merged value is the volume's own option when it has one,
the driver's otherwise. -/
theorem mountVolume_argument_list (n : seaweedfsDriver) (env : Env) (st : DriverState)
    (name source dest : String) :
    ∃ (h : String) (p : Int) (path portText : String) (opts : List String),
      parseSource source = some (h, p, path) ∧
      (mountVolume n env st name source dest).2.1 =
        [Event.exec "weed"
          (["mount",
            "-dir=" ++ dest,
            "-filer=" ++ (if h = "" then n.filer else h) ++ ":" ++ portText,
            "-filer.path=" ++ path] ++ opts)] ∧
      (portText =
        if 0 ≤ (if p = 0 then n.filerPort else p)
        then Nat.repr (if p = 0 then n.filerPort else p).toNat
        else "-" ++ Nat.repr (-(if p = 0 then n.filerPort else p)).toNat) ∧
      ((-(2 ^ (intSize - 1) : Int) ≤ (if p = 0 then n.filerPort else p) ∧
          (if p = 0 then n.filerPort else p) < (2 ^ (intSize - 1) : Int)) →
        Atoi portText = some (if p = 0 then n.filerPort else p)) ∧
      (match (merge (st.mountm.GetOptions name) n.seaweedfsOpts).lookup "seaweedfsopts" with
        | some val => Join opts "," = val ∧ opts ≠ [] ∧ ∀ t ∈ opts, ',' ∉ t.data
        | none => opts = []) ∧
      (merge (st.mountm.GetOptions name) n.seaweedfsOpts).lookup "seaweedfsopts" =
        (match (st.mountm.GetOptions name).lookup "seaweedfsopts" with
          | some v => some v
          | none => n.seaweedfsOpts.lookup "seaweedfsopts") := by
  cases hps : parseSource source with
  | none => exact absurd hps (parseSource_ne_none source)
  | some r =>
    obtain ⟨h, p, path⟩ := r
    refine ⟨h, p, path, formatInt (if p = 0 then n.filerPort else p),
      (match (merge (st.mountm.GetOptions name) n.seaweedfsOpts).lookup "seaweedfsopts" with
        | some val => Split val ','
        | none => []),
      rfl, ?_, formatInt_eq _, fun hr => Atoi_formatInt _ hr.1 hr.2, ?_, lookup_merge _ _ _⟩
    · unfold mountVolume mountVolumeArgs
      simp only [hps, runMount_trace, SeaweedfsOptions]
    · cases (merge (st.mountm.GetOptions name) n.seaweedfsOpts).lookup "seaweedfsopts" with
      | none => rfl
      | some val =>
        exact ⟨Join_Split val ',', Split_ne_nil val ',', Split_parts_no_sep val ','⟩

/-- C13 on four concrete mounts: a source with endpoint, port and path under
a driver with default options; a source whose port is not a number (the
configured port is used); a source without endpoint (the
configured filer and port are used); a source with a negative port. -/
theorem mountVolume_argument_list_examples :
    (mountVolume (NewSeaweedfsDriver ⟨"/mnt", fun root name => root ++ "/" ++ name⟩
        "localhost" 8888 "/" "allowOthers,-debug") Env.allOk DriverState.init
        "vol" "host:1234/remote/dir" "/mnt/vol").2.1 =
      [Event.exec "weed" ["mount", "-dir=/mnt/vol", "-filer=host:1234",
        "-filer.path=/remote/dir", "allowOthers", "-debug"]] ∧
    (mountVolume sampleDriver Env.allOk DriverState.init
        "vol" "host:notanumber/remote" "/mnt/vol").2.1 =
      [Event.exec "weed" ["mount", "-dir=/mnt/vol", "-filer=host:8888",
        "-filer.path=/remote"]] ∧
    (mountVolume sampleDriver Env.allOk DriverState.init
        "vol" "/just/a/path" "/mnt/vol").2.1 =
      [Event.exec "weed" ["mount", "-dir=/mnt/vol", "-filer=localhost:8888",
        "-filer.path=/just/a/path"]] ∧
    (mountVolume sampleDriver Env.allOk DriverState.init
        "vol" "host:-5/x" "/mnt/vol").2.1 =
      [Event.exec "weed" ["mount", "-dir=/mnt/vol", "-filer=host:-5",
        "-filer.path=/x"]] := by
  decide

/-- C14: `DriverType.String` returns the canonical name of each supported
backend kind, CIFS "cifs", NFS "nfs", EFS "efs", CEPH "ceph", SEAWEEDFS
"seaweedfs", and is injective on the five declared kinds. -/
theorem DriverType_String_names :
    DriverType.String CIFS = some "cifs" ∧
    DriverType.String NFS = some "nfs" ∧
    DriverType.String EFS = some "efs" ∧
    DriverType.String CEPH = some "ceph" ∧
    DriverType.String SEAWEEDFS = some "seaweedfs" ∧
    (∀ a ∈ declaredKinds, ∀ b ∈ declaredKinds,
      DriverType.String a = DriverType.String b → a = b) := by
  decide

/-- C15: for every volume name without a record in the Mount Manager,
`Unmount(name)` does not fail for lack of a record: it performs no decrement,
its first external step is the `umount` command against `mountpoint(root,
name)`, and the state (the refcounts of all volumes included, and no record for
the name) is as before; when that command and the directory removal succeed it
returns success after exactly these two steps. -/
theorem Unmount_without_record (n : seaweedfsDriver) (env : Env) (st : DriverState)
    (name : String) (hno : st.mountm.HasMount name = false) :
    (∃ tr, (Unmount n env st name).2.1 =
      Event.run ("umount " ++ n.mountpoint n.root name) :: tr) ∧
    (Unmount n env st name).1 ≠ Outcome.fault ∧
    (Unmount n env st name).2.2 = st ∧
    (Unmount n env st name).2.2.mountm.HasMount name = false ∧
    (env.unmountSucceeds →
      (Unmount n env st name).1 = Outcome.ok () ∧
      (Unmount n env st name).2.1 =
        [Event.run ("umount " ++ n.mountpoint n.root name),
          Event.removeAll (n.mountpoint n.root name)]) := by
  have hnone : st.mountm.mounts name = none := by
    simpa [MountManager.HasMount] using hno
  have hdel : st.mountm.DeleteIfNotManaged name = st.mountm := by
    simp [MountManager.DeleteIfNotManaged, hnone]
  have hU : Unmount n env st name = unmountPhysical env st name (n.mountpoint n.root name) := by
    simp [Unmount, hno]
  rw [hU]
  unfold unmountPhysical
  cases h1 : env.runErr with
  | some e =>
    refine ⟨⟨[], rfl⟩, by simp, rfl, hno, ?_⟩
    intro hs
    rw [hs.1] at h1
    exact absurd h1 (by simp)
  | none =>
    cases h2 : env.removeAllErr with
    | some e =>
      refine ⟨⟨_, rfl⟩, by simp, by simp [hdel], by simp [hdel, hno], ?_⟩
      intro hs
      rw [hs.2] at h2
      exact absurd h2 (by simp)
    | none =>
      exact ⟨⟨_, rfl⟩, by simp, by simp [hdel], by simp [hdel, hno], fun _ => ⟨rfl, rfl⟩⟩

/-- C15 on a fresh plugin, the `umount` command and the removal succeeding. -/
theorem Unmount_without_record_witness :
    (Unmount sampleDriver Env.allOk DriverState.init "vol").2.2 = DriverState.init ∧
    (Unmount sampleDriver Env.allOk DriverState.init "vol").1 = Outcome.ok () ∧
    (Unmount sampleDriver Env.allOk DriverState.init "vol").2.1 =
      [Event.run ("umount " ++ sampleDriver.mountpoint sampleDriver.root "vol"),
        Event.removeAll (sampleDriver.mountpoint sampleDriver.root "vol")] :=
  have h := Unmount_without_record sampleDriver Env.allOk DriverState.init "vol" rfl
  ⟨h.2.2.1, h.2.2.2.2 (by decide)⟩

/-- C16: `parseSource` is total: for every source string the split on '/' has
a first segment and a tail, the split of that segment on ':' has a first part,
a second part is read only when the split has more than one, and the function
returns a triple. -/
theorem parseSource_total (source : String) :
    (∃ r, parseSource source = some r) ∧
    (∃ first tail, Split source '/' = first :: tail ∧
      sliceFrom1 (Split source '/') = some tail ∧
      (∃ host more, Split first ':' = host :: more ∧
        ((Split first ':').length > 1 → ∃ portText, (Split first ':')[1]? = some portText))) := by
  constructor
  · cases h : parseSource source with
    | none => exact absurd h (parseSource_ne_none source)
    | some r => exact ⟨r, rfl⟩
  · cases hs : Split source '/' with
    | nil => exact absurd hs (Split_ne_nil _ _)
    | cons first tail =>
      refine ⟨first, tail, rfl, rfl, ?_⟩
      cases hp : Split first ':' with
      | nil => exact absurd hp (Split_ne_nil _ _)
      | cons host more =>
        refine ⟨host, more, rfl, ?_⟩
        intro hlen
        cases more with
        | nil => simp at hlen
        | cons portText rest => exact ⟨portText, by simp⟩

/-- C17: for every integer value `v` of `DriverType`, the table lookup of
`DriverType.String` is in bounds exactly when `0 ≤ v ≤ 4`, that is exactly for
the five declared constants, and the name table has as many entries as there
are declared kinds. -/
theorem DriverType_String_in_bounds (v : DriverType) :
    ((DriverType.String v).isSome = true ↔ 0 ≤ v ∧ v ≤ 4) ∧
    (v ∈ declaredKinds ↔ 0 ≤ v ∧ v ≤ 4) ∧
    driverTypes.length = declaredKinds.length ∧
    driverTypes.length = 5 := by
  have hbound : ∀ w : Int,
      (indexInt driverTypes w).isSome = true ↔ 0 ≤ w ∧ w ≤ 4 := by
    intro w
    rw [indexInt_isSome]
    have h5 : ((driverTypes.length : Nat) : Int) = 5 := rfl
    rw [h5]
    omega
  have hmem : ∀ w : Int, w ∈ ([0, 1, 2, 3, 4] : List Int) ↔ 0 ≤ w ∧ w ≤ 4 := by
    intro w
    simp only [List.mem_cons, List.mem_singleton, List.not_mem_nil, or_false]
    omega
  exact ⟨hbound v, hmem v, rfl, rfl⟩

end Netshare
